import Mathlib

/-
  Verification of the codebuff agent runtime against its specification.

  The development shallowly embeds the relevant TypeScript in Lean 4:
  JavaScript values become an inductive `JsVal`, the stream parser and its
  text buffer become explicit state passing over message-history lists,
  the tool-call sequencer becomes a small-step machine over schedules, and
  the step-control coroutine becomes a well-founded resumable tree.
-/

namespace Codebuff

/-! ## A model of JavaScript values

Used by the handlers that receive `unknown`-typed data. -/

/-- A JavaScript runtime value: null, undefined, booleans, numbers
(modelled as integers; no claim here depends on float behaviour),
strings, arrays and plain objects (insertion-ordered field lists). -/
inductive JsVal where
  | vNull
  | vUndefined
  | vBool (b : Bool)
  | vNum (n : Int)
  | vStr (s : String)
  | vArr (xs : List JsVal)
  | vObj (fields : List (String × JsVal))

/-- JavaScript truthiness: `null`, `undefined`, `false`, `0` and `""` are
falsy; every array and object is truthy. -/
def truthy : JsVal → Bool
  | .vNull => false
  | .vUndefined => false
  | .vBool b => b
  | .vNum n => n != 0
  | .vStr s => s != ""
  | .vArr _ => true
  | .vObj _ => true

/-- Optional-chained property access `x?.f`: `undefined` on `null`,
`undefined` and primitives; first matching field of an object; arrays have
no named fields beyond indices, so `undefined` there too. -/
def jsGet (v : JsVal) (f : String) : JsVal :=
  match v with
  | .vObj fields =>
    match fields.lookup f with
    | some w => w
    | none => .vUndefined
  | _ => .vUndefined

/-- The `typeof x === 'object'` test: true for objects, arrays and `null`. -/
def typeofObject : JsVal → Bool
  | .vObj _ => true
  | .vArr _ => true
  | .vNull => true
  | _ => false

/-- The `'f' in x` test on a non-null object-typed value. -/
def jsHasField (v : JsVal) (f : String) : Bool :=
  match v with
  | .vObj fields => (fields.lookup f).isSome
  | _ => false

/-- JavaScript `String(x)` conversion, on the cases the model needs. -/
def jsString : JsVal → String
  | .vNull => "null"
  | .vUndefined => "undefined"
  | .vBool b => if b then "true" else "false"
  | .vNum n => toString n
  | .vStr s => s
  | .vArr _ => ""
  | .vObj _ => "[object Object]"

/-- The `x != null` loose inequality: false exactly on `null` and
`undefined`. -/
def looseNonNull : JsVal → Bool
  | .vNull => false
  | .vUndefined => false
  | _ => true

end Codebuff

namespace Codebuff

/-! ## `extractSpawnResults` (code-reviewer-multi-prompt agent)

Embedded from the source: the nested helper `extractSpawnResults` of
`handleStepsMultiPrompt`. An element of the `results` argument is a
`{ type: string, value?: unknown }` record. -/

/-- One element of the spawn-results array handed to
`extractSpawnResults`: a `type` tag and an optional `value` (absence
modelled as `JsVal.vUndefined`). -/
structure SpawnCell where
  type : String
  value : JsVal

/-- The body of the `for (const result of spawnedResults)` loop of
`extractSpawnResults`, one element at a time, appending to the
accumulated `extracted` array exactly as the source pushes. -/
def extractLoop : List JsVal → List JsVal → List JsVal
  | acc, [] => acc
  | acc, result :: rest =>
    let innerValue := jsGet result "value"
    if truthy innerValue && typeofObject innerValue && jsHasField innerValue "value" then
      extractLoop (acc ++ [jsGet innerValue "value"]) rest
    else if truthy innerValue && typeofObject innerValue && jsHasField innerValue "errorMessage" then
      extractLoop (acc ++ [.vObj [("errorMessage", .vStr (jsString (jsGet innerValue "errorMessage")))]]) rest
    else if looseNonNull innerValue then
      extractLoop (acc ++ [innerValue]) rest
    else
      extractLoop acc rest

/-- `extractSpawnResults` from the multi-prompt code reviewer:
`undefined` or empty input yields `[]`; otherwise the first element whose
`type` is `'json'` is taken, a falsy (or missing) `value` yields `[]`,
and the value (wrapped in a singleton when not an array) is folded
through the extraction loop. -/
def extractSpawnResults (results : Option (List SpawnCell)) : List JsVal :=
  match results with
  | none => []
  | some rs =>
    if rs.length = 0 then []
    else
      match rs.find? (fun r => r.type == "json") with
      | none => []
      | some jsonResult =>
        if truthy jsonResult.value then
          let spawnedResults :=
            match jsonResult.value with
            | .vArr xs => xs
            | v => [v]
          extractLoop [] spawnedResults
        else []

/-- The per-element extraction of the amended claim: an inner value that
is an object carrying a `value` field is unwrapped, one carrying an
`errorMessage` field becomes an error record, any other non-null inner
value passes through, and a null or undefined inner value produces no
entry. -/
def extractEntry (result : JsVal) : Option JsVal :=
  let innerValue := jsGet result "value"
  if truthy innerValue && typeofObject innerValue && jsHasField innerValue "value" then
    some (jsGet innerValue "value")
  else if truthy innerValue && typeofObject innerValue && jsHasField innerValue "errorMessage" then
    some (.vObj [("errorMessage", .vStr (jsString (jsGet innerValue "errorMessage")))])
  else if looseNonNull innerValue then
    some innerValue
  else
    none

/-- The amended claim as a standalone description: empty or undefined
input, no `'json'` element, or a falsy value on the first `'json'`
element give `[]`; otherwise one entry per spawned result whose inner
value is non-null, in order. -/
def extractSpec (results : Option (List SpawnCell)) : List JsVal :=
  match results with
  | none => []
  | some rs =>
    match rs.find? (fun r => r.type == "json") with
    | none => []
    | some jsonResult =>
      if truthy jsonResult.value then
        (match jsonResult.value with
          | .vArr xs => xs
          | v => [v]).filterMap extractEntry
      else []

theorem extractLoop_eq_filterMap (xs : List JsVal) :
    ∀ acc, extractLoop acc xs = acc ++ xs.filterMap extractEntry := by
  induction xs with
  | nil => intro acc; simp [extractLoop]
  | cons x rest ih =>
    intro acc
    simp only [extractLoop, extractEntry, List.filterMap_cons]
    by_cases h1 : (truthy (jsGet x "value") && typeofObject (jsGet x "value")
        && jsHasField (jsGet x "value") "value") = true
    · simp [h1, ih, List.append_assoc]
    · simp only [Bool.not_eq_true] at h1
      simp only [h1]
      by_cases h2 : (truthy (jsGet x "value") && typeofObject (jsGet x "value")
          && jsHasField (jsGet x "value") "errorMessage") = true
      · simp [h2, ih, List.append_assoc]
      · simp only [Bool.not_eq_true] at h2
        simp only [h2]
        by_cases h3 : looseNonNull (jsGet x "value") = true
        · simp [h3, ih, List.append_assoc]
        · simp only [Bool.not_eq_true] at h3
          simp [h3, ih]

/-- C10 (amended): `extractSpawnResults` coincides with the amended
description `extractSpec`: the gate is the FIRST `'json'`-typed element
(a falsy value there yields `[]` even when a later `'json'` element has
a truthy value), and one entry is produced per spawned result whose
inner value is non-null, preserving order. -/
theorem c10_extract_matches_spec (results : Option (List SpawnCell)) :
    extractSpawnResults results = extractSpec results := by
  cases results with
  | none => rfl
  | some rs =>
    cases rs with
    | nil => rfl
    | cons r rest =>
      simp only [extractSpawnResults, extractSpec, List.length_cons]
      have hne : ¬(rest.length + 1 = 0) := Nat.succ_ne_zero _
      simp only [hne, if_false]
      cases hf : (r :: rest).find? (fun c => c.type == "json") with
      | none => rfl
      | some jsonResult =>
        by_cases ht : truthy jsonResult.value = true
        · simp only [ht, if_true]
          simpa using extractLoop_eq_filterMap _ []
        · simp [ht]

/-- C10 counterexample: the input
`[{type: 'json'}, {type: 'json', value: [{value: 5}]}]` does contain an
element with type `'json'` and a truthy value, so the claim as stated
demands one extracted entry (the unwrapped `5`); the code instead takes
the FIRST `'json'` element, whose value is undefined, and returns the
empty array. -/
theorem c10_counterexample :
    (extractSpawnResults (some
      [⟨"json", .vUndefined⟩,
       ⟨"json", .vArr [.vObj [("value", .vNum 5)]]⟩])).length = 0 := by
  rfl

end Codebuff

namespace Codebuff

/-! ## Stream parser and text buffer

Modelled from the spec: `processStream` / `processStreamWithTools` of
`packages/agent-runtime/src/tools/stream-parser.ts` is exercised by
`__tests__/stream-parser-abort.test.ts` but the parser source itself is
not under `src/`, so the parser, its text buffer and the cancellation
signal are modelled from spec sections 4.1, 4.2 and 5. -/

/-- A chunk of the already-demultiplexed model stream: a text fragment
or a tool invocation. -/
inductive StreamChunk where
  | text (content : String)
  | toolCall (name : String) (id : String) (input : JsVal)

/-- A content block of an appended assistant message. -/
inductive ContentBlock where
  | textBlock (text : String)
  | toolCallBlock (name : String) (id : String) (input : JsVal)

/-- Modelled from the spec: how the consumed chunk sequence terminates —
normal completion, or the source sequence raising an abort condition
(the `AbortError` thrown by the mock streams in the tests). -/
inductive StreamEnd where
  | normal
  | raiseAbort

/-- The turn outcome the parser hands its caller. -/
inductive StreamOutcome where
  | completed
  | abortPropagated
deriving DecidableEq

/-- Modelled from the spec: the Text Buffer `flush()` contract (spec
4.1) — when the buffer is non-empty, append exactly one text content
block to the history and clear the buffer; a no-op when empty. -/
def flushBuffer (buf : String) (hist : List ContentBlock) :
    String × List ContentBlock :=
  if buf = "" then (buf, hist) else ("", hist ++ [.textBlock buf])

/-- Modelled from the spec: the cooperative cancellation signal,
abstracted as the number of chunks after which the parser observes it
set (`none` means it is never observed set): `some 0` is a set signal. -/
def signalFired : Option Nat → Bool
  | some 0 => true
  | _ => false

/-- One chunk passes: the countdown to the signal being observed set
decreases. -/
def signalTick : Option Nat → Option Nat
  | some (k + 1) => some k
  | s => s

/-- Modelled from the spec: the parser loop (spec 4.2). At the top of
each iteration the cancellation signal is checked; if set, the stream is
released and the guaranteed flush runs before the abort propagates.
Otherwise a `Text` chunk appends to the buffer, a `ToolCall` chunk first
flushes the buffer and then records the tool-call block, and when the
sequence is exhausted the final flush runs on both the normal and the
abort-raising exit path. -/
def processGo (ending : StreamEnd) :
    List StreamChunk → Option Nat → String → List ContentBlock →
    List ContentBlock × StreamOutcome
  | chunks, sig, buf, hist =>
    if signalFired sig then
      ((flushBuffer buf hist).2, .abortPropagated)
    else
      match chunks with
      | [] =>
        match ending with
        | .normal => ((flushBuffer buf hist).2, .completed)
        | .raiseAbort => ((flushBuffer buf hist).2, .abortPropagated)
      | .text s :: rest =>
        processGo ending rest (signalTick sig) (buf ++ s) hist
      | .toolCall n id inp :: rest =>
        processGo ending rest (signalTick sig) ""
          ((flushBuffer buf hist).2 ++ [.toolCallBlock n id inp])

/-- Modelled from the spec: `processStream` over a fresh turn — empty
buffer, empty history. -/
def processStream (chunks : List StreamChunk) (ending : StreamEnd)
    (sig : Option Nat) : List ContentBlock × StreamOutcome :=
  processGo ending chunks sig "" []

/-- Concatenation of a list of strings, in order. -/
def concatTexts : List String → String
  | [] => ""
  | s :: rest => s ++ concatTexts rest

/-- The text a content block contributes to the assistant transcript. -/
def blockText : ContentBlock → String
  | .textBlock s => s
  | .toolCallBlock _ _ _ => ""

/-- All assistant text of a history, in block order. -/
def historyText (hist : List ContentBlock) : String :=
  concatTexts (hist.map blockText)

/-- The text a chunk contributes. -/
def chunkText : StreamChunk → String
  | .text s => s
  | .toolCall _ _ _ => ""

/-- All text carried by a chunk sequence, in arrival order. -/
def textOfChunks (chunks : List StreamChunk) : String :=
  concatTexts (chunks.map chunkText)

/-- How many chunks the parser observes before exiting: all of them
unless the signal fires first. -/
def observedCount (sig : Option Nat) (len : Nat) : Nat :=
  match sig with
  | none => len
  | some k => min k len

/-- Whether a text content block. -/
def isTextBlock : ContentBlock → Bool
  | .textBlock _ => true
  | .toolCallBlock _ _ _ => false

/-- Number of text content blocks in a history. -/
def countTextBlocks (hist : List ContentBlock) : Nat :=
  hist.countP isTextBlock

theorem concatTexts_append (a b : List String) :
    concatTexts (a ++ b) = concatTexts a ++ concatTexts b := by
  induction a with
  | nil => simp [concatTexts, String.empty_append]
  | cons s rest ih => simp [concatTexts, ih, String.append_assoc]

theorem historyText_append (a b : List ContentBlock) :
    historyText (a ++ b) = historyText a ++ historyText b := by
  simp [historyText, concatTexts_append]

theorem historyText_flushBuffer (buf : String) (hist : List ContentBlock) :
    historyText (flushBuffer buf hist).2 = historyText hist ++ buf := by
  by_cases h : buf = ""
  · simp [flushBuffer, h, String.append_empty]
  · simp [flushBuffer, h, historyText, concatTexts_append, concatTexts,
      blockText, String.append_empty]

theorem historyText_toolCall_single (n id : String) (inp : JsVal) :
    historyText [ContentBlock.toolCallBlock n id inp] = "" := by
  simp [historyText, concatTexts, blockText, String.append_empty]

theorem textOfChunks_cons (c : StreamChunk) (rest : List StreamChunk) :
    textOfChunks (c :: rest) = chunkText c ++ textOfChunks rest := rfl

theorem processGo_text_none (ending : StreamEnd) (s : String)
    (rest : List StreamChunk) (buf : String) (hist : List ContentBlock) :
    processGo ending (.text s :: rest) none buf hist
      = processGo ending rest none (buf ++ s) hist := by
  simp [processGo, signalFired, signalTick]

theorem processGo_text_succ (ending : StreamEnd) (s : String)
    (rest : List StreamChunk) (m : Nat) (buf : String)
    (hist : List ContentBlock) :
    processGo ending (.text s :: rest) (some (m + 1)) buf hist
      = processGo ending rest (some m) (buf ++ s) hist := by
  simp [processGo, signalFired, signalTick]

theorem processGo_tool_none (ending : StreamEnd) (n id : String)
    (inp : JsVal) (rest : List StreamChunk) (buf : String)
    (hist : List ContentBlock) :
    processGo ending (.toolCall n id inp :: rest) none buf hist
      = processGo ending rest none ""
          ((flushBuffer buf hist).2 ++ [.toolCallBlock n id inp]) := by
  simp [processGo, signalFired, signalTick]

theorem processGo_tool_succ (ending : StreamEnd) (n id : String)
    (inp : JsVal) (rest : List StreamChunk) (m : Nat) (buf : String)
    (hist : List ContentBlock) :
    processGo ending (.toolCall n id inp :: rest) (some (m + 1)) buf hist
      = processGo ending rest (some m) ""
          ((flushBuffer buf hist).2 ++ [.toolCallBlock n id inp]) := by
  simp [processGo, signalFired, signalTick]

theorem processGo_sig_zero (ending : StreamEnd) (chunks : List StreamChunk)
    (buf : String) (hist : List ContentBlock) :
    processGo ending chunks (some 0) buf hist
      = ((flushBuffer buf hist).2, .abortPropagated) := by
  cases chunks with
  | nil => simp [processGo, signalFired]
  | cons c rest => cases c <;> simp [processGo, signalFired]

theorem processGo_historyText (ending : StreamEnd) (chunks : List StreamChunk) :
    ∀ sig buf hist,
      historyText (processGo ending chunks sig buf hist).1
        = historyText hist ++ buf
          ++ textOfChunks (chunks.take (observedCount sig chunks.length)) := by
  induction chunks with
  | nil =>
    intro sig buf hist
    cases sig with
    | none =>
      cases ending <;>
        simp [processGo, signalFired, historyText_flushBuffer, textOfChunks,
          concatTexts, String.append_empty, String.append_assoc]
    | some k =>
      cases k with
      | zero =>
        simp [processGo, signalFired, historyText_flushBuffer, textOfChunks,
          concatTexts, String.append_empty, String.append_assoc]
      | succ m =>
        cases ending <;>
          simp [processGo, signalFired, historyText_flushBuffer, textOfChunks,
            concatTexts, String.append_empty, String.append_assoc]
  | cons c rest ih =>
    intro sig buf hist
    cases sig with
    | none =>
      cases c with
      | text s =>
        rw [processGo_text_none, ih]
        simp [observedCount, List.take_succ_cons, List.take_length,
          textOfChunks_cons, chunkText, String.append_assoc]
      | toolCall n id inp =>
        rw [processGo_tool_none, ih, historyText_append,
          historyText_flushBuffer, historyText_toolCall_single]
        simp [observedCount, List.take_succ_cons, List.take_length,
          textOfChunks_cons, chunkText, String.append_empty,
          String.empty_append, String.append_assoc]
    | some k =>
      cases k with
      | zero =>
        rw [processGo_sig_zero, historyText_flushBuffer]
        simp [observedCount, textOfChunks, concatTexts, String.append_empty]
      | succ m =>
        cases c with
        | text s =>
          rw [processGo_text_succ, ih]
          simp [observedCount, Nat.succ_min_succ,
            List.take_succ_cons, textOfChunks_cons, chunkText,
            String.append_assoc]
        | toolCall n id inp =>
          rw [processGo_tool_succ, ih, historyText_append,
            historyText_flushBuffer, historyText_toolCall_single]
          simp [observedCount, Nat.succ_min_succ,
            List.take_succ_cons, textOfChunks_cons, chunkText,
            String.append_empty, String.empty_append, String.append_assoc]

theorem processGo_aborts (ending : StreamEnd) (chunks : List StreamChunk) :
    ∀ sig buf hist,
      (ending = .raiseAbort ∨ ∃ k, sig = some k ∧ k ≤ chunks.length) →
      (processGo ending chunks sig buf hist).2 = .abortPropagated := by
  induction chunks with
  | nil =>
    intro sig buf hist h
    rcases h with h | ⟨k, hk, hle⟩
    · subst h
      cases sig with
      | none => simp [processGo, signalFired]
      | some k => cases k <;> simp [processGo, signalFired]
    · subst hk
      have : k = 0 := Nat.le_zero.mp hle
      subst this
      simp [processGo, signalFired]
  | cons c rest ih =>
    intro sig buf hist h
    rcases h with h | ⟨k, hk, hle⟩
    · cases sig with
      | none =>
        cases c with
        | text s =>
          rw [processGo_text_none]
          exact ih _ _ _ (Or.inl h)
        | toolCall n id inp =>
          rw [processGo_tool_none]
          exact ih _ _ _ (Or.inl h)
      | some k =>
        cases k with
        | zero => rw [processGo_sig_zero]
        | succ m =>
          cases c with
          | text s =>
            rw [processGo_text_succ]
            exact ih _ _ _ (Or.inl h)
          | toolCall n id inp =>
            rw [processGo_tool_succ]
            exact ih _ _ _ (Or.inl h)
    · subst hk
      cases k with
      | zero => rw [processGo_sig_zero]
      | succ m =>
        cases c with
        | text s =>
          rw [processGo_text_succ]
          exact ih _ _ _ (Or.inr ⟨m, rfl, Nat.le_of_succ_le_succ hle⟩)
        | toolCall n id inp =>
          rw [processGo_tool_succ]
          exact ih _ _ _ (Or.inr ⟨m, rfl, Nat.le_of_succ_le_succ hle⟩)

/-- C1: on every abort exit path — the source sequence raising an abort
after all its chunks, or the cooperative cancellation signal observed
set between chunks — the history after the abort propagates carries
exactly the concatenation of the text of the observed chunks (every
buffered fragment is flushed, exactly once, none dropped and none
duplicated), and the outcome handed to the caller is the abort outcome. -/
theorem c1_abort_flushes_buffered_text (chunks : List StreamChunk)
    (ending : StreamEnd) (sig : Option Nat)
    (h : ending = .raiseAbort ∨ ∃ k, sig = some k ∧ k ≤ chunks.length) :
    historyText (processStream chunks ending sig).1
        = textOfChunks (chunks.take (observedCount sig chunks.length))
      ∧ (processStream chunks ending sig).2 = .abortPropagated := by
  constructor
  · have := processGo_historyText ending chunks sig "" []
    simpa [processStream, historyText, concatTexts, String.empty_append]
      using this
  · exact processGo_aborts ending chunks sig "" [] h

/-- C1 witness: the abort test scenario — chunks
`[Text "Hello ", Text "world"]` and the source then raising an abort:
the history text is `"Hello world"` and the abort propagates. -/
theorem c1_abort_flushes_buffered_text_witness :
    historyText (processStream [.text "Hello ", .text "world"]
        .raiseAbort none).1
      = textOfChunks ([StreamChunk.text "Hello ",
          StreamChunk.text "world"].take
          (observedCount none [StreamChunk.text "Hello ",
            StreamChunk.text "world"].length))
    ∧ (processStream [.text "Hello ", .text "world"] .raiseAbort none).2
      = .abortPropagated :=
  c1_abort_flushes_buffered_text [.text "Hello ", .text "world"]
    .raiseAbort none (Or.inl rfl)

end Codebuff

namespace Codebuff

/-! ## Normal-completion runs of the parser: claims C4, C5, C7 -/

theorem processGo_textRun_append (ending : StreamEnd) (ts : List String)
    (rest : List StreamChunk) :
    ∀ buf hist, processGo ending (ts.map .text ++ rest) none buf hist
      = processGo ending rest none (buf ++ concatTexts ts) hist := by
  induction ts with
  | nil => intro buf hist; simp [concatTexts, String.append_empty]
  | cons s more ih =>
    intro buf hist
    simp only [List.map_cons, List.cons_append]
    rw [processGo_text_none, ih, String.append_assoc]
    rfl

theorem processGo_textRun_normal (ts : List String) :
    ∀ buf hist, processGo .normal (ts.map .text) none buf hist
      = ((flushBuffer (buf ++ concatTexts ts) hist).2, .completed) := by
  induction ts with
  | nil =>
    intro buf hist
    simp [processGo, signalFired, concatTexts, String.append_empty]
  | cons s more ih =>
    intro buf hist
    simp only [List.map_cons]
    rw [processGo_text_none, ih, String.append_assoc]
    rfl

/-- C5 (amended): for every sequence of `Text` chunks whose concatenated
content is non-empty, followed by normal stream completion, the history
is exactly one text content block whose text is the concatenation of the
chunks' contents in arrival order (the non-emptiness proviso is forced
by the flush contract being a no-op on an empty buffer). -/
theorem c5_single_text_block (ts : List String)
    (h : concatTexts ts ≠ "") :
    processStream (ts.map .text) .normal none
      = ([.textBlock (concatTexts ts)], .completed) := by
  unfold processStream
  rw [processGo_textRun_normal]
  simp [flushBuffer, String.empty_append, h]

/-- C5 witness: the chunks `[Text "Hello ", Text "world"]` with normal
completion produce exactly the single text block `"Hello world"`. -/
theorem c5_single_text_block_witness :
    processStream (["Hello ", "world"].map .text) .normal none
      = ([.textBlock (concatTexts ["Hello ", "world"])], .completed) :=
  c5_single_text_block ["Hello ", "world"] (by decide)

/-- C5 counterexample: the sequence `[Text ""]` consists only of `Text`
chunks and completes normally, yet zero (not exactly one) text content
blocks are appended, because the flush of an empty buffer is a no-op. -/
theorem c5_counterexample :
    countTextBlocks (processStream [.text ""] .normal none).1 ≠ 1 := by
  decide

/-- C4 (amended): for every chunk sequence of the shape Text-chunks,
one ToolCall, Text-chunks — with both concatenated text segments
non-empty — normal completion leaves exactly the history
text-block, tool-call-block, text-block: the post-tool-call text forms a
second buffered segment, never merged with the pre-tool-call segment
(the non-emptiness proviso and the exact shape are forced by the
counterexample below). -/
theorem c4_text_straddles_tool_call (ts1 ts2 : List String)
    (n id : String) (inp : JsVal)
    (h1 : concatTexts ts1 ≠ "") (h2 : concatTexts ts2 ≠ "") :
    processStream (ts1.map .text ++ .toolCall n id inp :: ts2.map .text)
        .normal none
      = ([.textBlock (concatTexts ts1), .toolCallBlock n id inp,
          .textBlock (concatTexts ts2)], .completed) := by
  unfold processStream
  rw [processGo_textRun_append, processGo_tool_none, processGo_textRun_normal]
  simp [flushBuffer, String.empty_append, h1, h2]

/-- C4 witness: the spec's scenario — chunks
`[Text "A", ToolCall read_files tc-1, Text "B"]` with normal completion
yield the history text `"A"`, the tool-call block, then text `"B"`. -/
theorem c4_text_straddles_tool_call_witness :
    processStream
        (["A"].map .text
          ++ .toolCall "read_files" "tc-1" .vNull :: ["B"].map .text)
        .normal none
      = ([.textBlock (concatTexts ["A"]),
          .toolCallBlock "read_files" "tc-1" .vNull,
          .textBlock (concatTexts ["B"])], .completed) :=
  c4_text_straddles_tool_call ["A"] ["B"] "read_files" "tc-1" .vNull
    (by decide) (by decide)

/-- C4 counterexample: the sequence
`[Text "", ToolCall read_files tc-1, Text ""]` contains `Text, ToolCall,
Text` in that order, yet the history ends with zero (not two) text
content blocks, because empty buffered segments flush nothing. -/
theorem c4_counterexample :
    countTextBlocks (processStream
        [.text "", .toolCall "read_files" "tc-1" .vNull, .text ""]
        .normal none).1 ≠ 2 := by
  decide

/-- C7: the Text Buffer flush is idempotent — flushing an empty buffer
appends nothing to the history, and flushing the state left by a flush
changes nothing, so for every buffer state two consecutive flushes
append exactly the history one flush appends; triggered from several
call sites, the buffered text is therefore appended at most once. -/
theorem c7_flush_idempotent (buf : String) (hist : List ContentBlock) :
    flushBuffer "" hist = ("", hist)
      ∧ flushBuffer (flushBuffer buf hist).1 (flushBuffer buf hist).2
          = flushBuffer buf hist := by
  constructor
  · simp [flushBuffer]
  · by_cases h : buf = "" <;> simp [flushBuffer, h]

end Codebuff

namespace Codebuff

/-! ## Tool Call Sequencer dispatch: claim C8

Modelled from the spec: the `dispatch` contract of the Tool Call
Sequencer (spec 4.3) — the sequencer source is not under `src/`. -/

/-- The outcome attached to a tool-call record. -/
inductive ToolOutcome where
  | success (v : JsVal)
  | error (msg : String)

/-- A tool-call record: identity, name, structured input and the
eventually attached result. -/
structure ToolCallRecord where
  id : String
  name : String
  input : JsVal
  result : Option ToolOutcome

/-- What one dispatch produced: the updated record, whether any handler
body was invoked, and whether the turn continues. -/
structure DispatchResult where
  record : ToolCallRecord
  handlerInvoked : Bool
  turnContinues : Bool

/-- Modelled from the spec: `dispatch` (spec 4.3). The handler for
`record.name` is resolved; with no handler the record's result becomes
the "unknown tool" error outcome without invoking anything; otherwise
the handler runs and its failure is caught and attached as an error
outcome. No branch ends the turn — only explicit cancellation does. -/
def dispatch (handlers : List (String × (JsVal → Except String JsVal)))
    (r : ToolCallRecord) : DispatchResult :=
  match handlers.lookup r.name with
  | none =>
    { record := { r with result := some (.error "unknown tool") },
      handlerInvoked := false, turnContinues := true }
  | some h =>
    match h r.input with
    | .ok v =>
      { record := { r with result := some (.success v) },
        handlerInvoked := true, turnContinues := true }
    | .error m =>
      { record := { r with result := some (ToolOutcome.error m) },
        handlerInvoked := true, turnContinues := true }

/-- C8: for every tool-call record whose name has no registered handler,
dispatch attaches the "unknown tool" error outcome to that record, does
not invoke any handler, and the turn continues. -/
theorem c8_unknown_tool_recoverable
    (handlers : List (String × (JsVal → Except String JsVal)))
    (r : ToolCallRecord) (h : handlers.lookup r.name = none) :
    dispatch handlers r
      = { record := { r with result := some (.error "unknown tool") },
          handlerInvoked := false, turnContinues := true } := by
  simp [dispatch, h]

/-- C8 witness: a record named `frobnicate` against a handler table that
only registers `read_files` gets the unknown-tool error outcome, no
handler invocation, and a continuing turn. -/
theorem c8_unknown_tool_recoverable_witness :
    dispatch [("read_files", fun v => Except.ok v)]
        { id := "tc-9", name := "frobnicate", input := .vNull, result := none }
      = { record := { id := "tc-9", name := "frobnicate", input := .vNull,
                      result := some (.error "unknown tool") },
          handlerInvoked := false, turnContinues := true } :=
  c8_unknown_tool_recoverable [("read_files", fun v => Except.ok v)]
    { id := "tc-9", name := "frobnicate", input := .vNull, result := none }
    rfl

end Codebuff

namespace Codebuff

/-! ## Sub-agent spawner: claim C3

Modelled from the spec: `spawnAll` (spec 4.4) — the spawner source is
not under `src/`; the per-index review/error pairing of
`handleStepsMultiPrompt` consumes its aggregate. The arbitrary order in
which children finish is modelled as an explicit completion order; the
aggregate is an index-keyed join over that order. -/

/-- A sub-agent slot outcome: a success value or an error message. -/
inductive SpawnOutcome where
  | value (v : JsVal)
  | errorMessage (msg : String)

/-- The outcome of one child invocation. -/
def childOutcome : Except String JsVal → SpawnOutcome
  | .ok v => .value v
  | .error m => .errorMessage m

/-- Modelled from the spec: as child `i` completes, its outcome is
written into slot `i` of the aggregate (an index-keyed join, not a
first-resolved race). -/
def recordCompletion (outs : List SpawnOutcome)
    (acc : List (Option SpawnOutcome)) (i : Nat) :
    List (Option SpawnOutcome) :=
  match outs[i]? with
  | some o => acc.set i (some o)
  | none => acc

/-- Modelled from the spec: the aggregate after every completion in
`order` has been recorded, starting from all-unresolved slots. -/
def joinByIndex (outs : List SpawnOutcome) (order : List Nat) :
    List (Option SpawnOutcome) :=
  order.foldl (recordCompletion outs) (List.replicate outs.length none)

/-- Modelled from the spec: `spawnAll` — run every child, record each
outcome in request order regardless of the completion order. -/
def spawnAll (children : List (Except String JsVal)) (order : List Nat) :
    List (Option SpawnOutcome) :=
  joinByIndex (children.map childOutcome) order

theorem recordCompletion_length (outs : List SpawnOutcome)
    (acc : List (Option SpawnOutcome)) (i : Nat) :
    (recordCompletion outs acc i).length = acc.length := by
  unfold recordCompletion
  cases h : outs[i]? <;> simp

theorem recordCompletion_getElem (outs : List SpawnOutcome)
    (acc : List (Option SpawnOutcome)) (i j : Nat)
    (hlen : acc.length = outs.length) :
    (recordCompletion outs acc i)[j]?
      = if i = j ∧ j < outs.length then (outs[j]?).map some
        else acc[j]? := by
  unfold recordCompletion
  cases h : outs[i]? with
  | none =>
    have hni : outs.length ≤ i := List.getElem?_eq_none_iff.mp h
    by_cases hij : i = j
    · subst hij
      have hlt : ¬i < outs.length := by omega
      simp [hlt]
    · simp [hij]
  | some o =>
    have hi : i < outs.length := (List.getElem?_eq_some.mp h).1
    rw [List.getElem?_set]
    by_cases hij : i = j
    · subst hij
      have hacc : i < acc.length := by omega
      simp [hi, hacc, h]
    · simp [hij]

theorem joinByIndex_getElem (outs : List SpawnOutcome) (order : List Nat) :
    ∀ acc : List (Option SpawnOutcome), acc.length = outs.length →
      ∀ j : Nat, (order.foldl (recordCompletion outs) acc)[j]?
        = if j ∈ order ∧ j < outs.length then (outs[j]?).map some
          else acc[j]? := by
  induction order with
  | nil => intro acc hlen j; simp
  | cons i rest ih =>
    intro acc hlen j
    rw [List.foldl_cons,
      ih _ (by rw [recordCompletion_length]; exact hlen) j,
      recordCompletion_getElem outs acc i j hlen]
    by_cases hjr : j ∈ rest
    · by_cases hjl : j < outs.length
      · simp [hjr, hjl, List.mem_cons]
      · simp [hjr, hjl, List.mem_cons]
    · by_cases hij : i = j
      · subst hij
        simp [hjr, List.mem_cons]
      · have hji : ¬(j = i) := fun hx => hij hx.symm
        simp [hjr, hij, hji, List.mem_cons]

/-- C3: for every non-empty batch of K sub-agent requests and every
completion order (any permutation of the request indices), the aggregate
has exactly K slots matching the request order — slot `i` always holds
child `i`'s outcome — and when child `i` fails its slot holds the
`errorMessage` outcome while every successful child's slot holds its
success outcome: one child's failure neither cancels nor corrupts the
siblings' slots. -/
theorem c3_spawnAll_order_and_isolation
    (children : List (Except String JsVal)) (order : List Nat)
    (hK : 0 < children.length)
    (hperm : order.Perm (List.range children.length)) :
    spawnAll children order
        = children.map (fun c => some (childOutcome c))
      ∧ (spawnAll children order).length = children.length
      ∧ (∀ (i : Nat) (m : String), children[i]? = some (Except.error m) →
          (spawnAll children order)[i]? = some (some (SpawnOutcome.errorMessage m)))
      ∧ (∀ (i : Nat) (v : JsVal), children[i]? = some (Except.ok v) →
          (spawnAll children order)[i]? = some (some (SpawnOutcome.value v))) := by
  have hmain : spawnAll children order
      = children.map (fun c => some (childOutcome c)) := by
    apply List.ext_getElem?
    intro j
    unfold spawnAll joinByIndex
    rw [joinByIndex_getElem (children.map childOutcome) order _
      (by simp) j]
    have hmem : j ∈ order ↔ j < children.length := by
      rw [hperm.mem_iff, List.mem_range]
    by_cases hj : j < children.length
    · simp [hmem, hj, List.getElem?_map, Option.map_map, Function.comp]
    · have h1 : children.length ≤ j := Nat.le_of_not_lt hj
      simp [hmem, hj, List.getElem?_eq_none_iff.mpr, h1,
        List.getElem?_eq_none_iff.mpr (by simpa using h1)]
  refine ⟨hmain, ?_, ?_, ?_⟩
  · rw [hmain]; simp
  · intro i m hi
    rw [hmain, List.getElem?_map, hi]
    simp [childOutcome]
  · intro i v hi
    rw [hmain, List.getElem?_map, hi]
    simp [childOutcome]

/-- C3 witness: three children, the middle one failing, completing in
the order 2, 0, 1: the aggregate preserves request order, has length 3,
slot 1 carries the error outcome and slots 0 and 2 the success
outcomes. -/
theorem c3_spawnAll_order_and_isolation_witness :
    spawnAll [.ok (.vStr "r0"), .error "boom", .ok (.vStr "r2")] [2, 0, 1]
        = [Except.ok (JsVal.vStr "r0"), Except.error "boom",
            Except.ok (JsVal.vStr "r2")].map
            (fun c => some (childOutcome c))
      ∧ (spawnAll [.ok (.vStr "r0"), .error "boom", .ok (.vStr "r2")]
          [2, 0, 1]).length = 3
      ∧ (∀ (i : Nat) (m : String),
          ([Except.ok (JsVal.vStr "r0"), Except.error "boom",
            Except.ok (JsVal.vStr "r2")])[i]? = some (Except.error m) →
          (spawnAll [.ok (.vStr "r0"), .error "boom", .ok (.vStr "r2")]
            [2, 0, 1])[i]? = some (some (SpawnOutcome.errorMessage m)))
      ∧ (∀ (i : Nat) (v : JsVal),
          ([Except.ok (JsVal.vStr "r0"), Except.error "boom",
            Except.ok (JsVal.vStr "r2")])[i]? = some (Except.ok v) →
          (spawnAll [.ok (.vStr "r0"), .error "boom", .ok (.vStr "r2")]
            [2, 0, 1])[i]? = some (some (SpawnOutcome.value v))) :=
  c3_spawnAll_order_and_isolation
    [.ok (.vStr "r0"), .error "boom", .ok (.vStr "r2")] [2, 0, 1]
    (by decide) (by decide)

end Codebuff

namespace Codebuff

/-! ## Tool Call Sequencer ordering: claim C2

Modelled from the spec: the completion-handle chain of spec 4.3 and 5 —
the sequencer source is not under `src/`; `handleSkill` in `src`
witnesses the handler-side convention of awaiting
`previousToolCallFinished` before performing any effect. The turn is a
small-step machine: at each step the scheduler either reads the next
chunk from the stream (dispatching that tool call) or lets the earliest
dispatched, not-yet-completed handler perform one effect; a handler's
body may run only while it is at the head of the completion chain. -/

/-- An observable event of a turn: a stream read that dispatches call
`call`, or one effect of handler `call`'s body. -/
inductive Ev where
  | read (call : Nat)
  | eff (call : Nat)
deriving DecidableEq

/-- The sequencer state: tool calls not yet read off the stream, the
chain of dispatched calls still to complete (head = the one whose prior
completion has resolved), and the event trace so far. A call is a pair
of its arrival index and the number of effects remaining in its body. -/
structure SeqSt where
  pending : List (Nat × Nat)
  queue : List (Nat × Nat)
  trace : List Ev

/-- One scheduler step: `true` reads the next chunk off the stream
(stream consumption keeps going while handlers run), `false` advances
the head of the completion chain — one effect of the earliest
uncompleted handler, or resolution of its completion handle when its
body is exhausted. Choices that cannot fire leave the state unchanged. -/
def seqStep (s : SeqSt) (b : Bool) : SeqSt :=
  if b then
    match s.pending with
    | [] => s
    | c :: rest =>
      { pending := rest, queue := s.queue ++ [c],
        trace := s.trace ++ [.read c.1] }
  else
    match s.queue with
    | [] => s
    | (_, 0) :: q => { s with queue := q }
    | (i, m + 1) :: q =>
      { s with queue := (i, m) :: q, trace := s.trace ++ [.eff i] }

/-- Run the machine over a schedule of choices. -/
def seqRun : SeqSt → List Bool → SeqSt
  | s, [] => s
  | s, b :: sched => seqRun (seqStep s b) sched

/-- The calls whose handler effects appear in a trace, in trace order. -/
def effCalls (t : List Ev) : List Nat :=
  t.filterMap (fun e => match e with | .eff i => some i | .read _ => none)

/-- A fresh turn: every call still pending on the stream. -/
def initSt (calls : List (Nat × Nat)) : SeqSt :=
  { pending := calls, queue := [], trace := [] }

/-- The machine invariant: the effect trace is ordered by call index,
every traced effect's call is no later than any dispatched or pending
call, and the dispatched-then-pending calls are themselves in arrival
order. -/
def Inv (s : SeqSt) : Prop :=
  List.Pairwise (· ≤ ·) (effCalls s.trace)
    ∧ (∀ a ∈ effCalls s.trace, ∀ c ∈ s.queue, a ≤ c.1)
    ∧ (∀ a ∈ effCalls s.trace, ∀ c ∈ s.pending, a ≤ c.1)
    ∧ List.Pairwise (· ≤ ·) ((s.queue ++ s.pending).map Prod.fst)

theorem effCalls_append (a b : List Ev) :
    effCalls (a ++ b) = effCalls a ++ effCalls b :=
  List.filterMap_append a b _

theorem effCalls_read (t : List Ev) (i : Nat) :
    effCalls (t ++ [.read i]) = effCalls t := by
  rw [effCalls_append]
  simp [effCalls]

theorem effCalls_eff (t : List Ev) (i : Nat) :
    effCalls (t ++ [.eff i]) = effCalls t ++ [i] := by
  rw [effCalls_append]
  simp [effCalls]

theorem seqStep_inv (s : SeqSt) (b : Bool) (h : Inv s) : Inv (seqStep s b) := by
  obtain ⟨h1, h2, h3, h4⟩ := h
  cases b with
  | true =>
    cases hp : s.pending with
    | nil =>
      simp only [seqStep, if_true, hp]
      exact ⟨h1, h2, h3, h4⟩
    | cons c rest =>
      rw [hp] at h3 h4
      refine ⟨?_, ?_, ?_, ?_⟩
      · simpa [seqStep, hp, effCalls_read] using h1
      · intro a ha cc hcc
        simp only [seqStep, hp, if_true, effCalls_read] at ha hcc
        rcases List.mem_append.mp hcc with hq | hc
        · exact h2 a ha cc hq
        · rw [List.mem_singleton.mp hc]
          exact h3 a ha c (List.mem_cons_self c rest)
      · intro a ha cc hcc
        simp only [seqStep, hp, if_true, effCalls_read] at ha hcc
        exact h3 a ha cc (List.mem_cons_of_mem c hcc)
      · simp only [seqStep, hp, if_true]
        have : (s.queue ++ [c]) ++ rest = s.queue ++ c :: rest := by
          rw [List.append_assoc, List.singleton_append]
        rw [this]
        exact h4
  | false =>
    cases hq : s.queue with
    | nil =>
      simp only [seqStep, Bool.false_eq_true, if_false, hq]
      exact ⟨h1, h2, h3, h4⟩
    | cons ch q =>
      obtain ⟨i, m⟩ := ch
      rw [hq] at h2 h4
      cases m with
      | zero =>
        simp only [seqStep, Bool.false_eq_true, if_false, hq]
        refine ⟨h1, ?_, h3, ?_⟩
        · intro a ha cc hcc
          exact h2 a ha cc (List.mem_cons_of_mem _ hcc)
        · rw [List.cons_append, List.map_cons] at h4
          exact (List.pairwise_cons.mp h4).2
      | succ m =>
        simp only [seqStep, Bool.false_eq_true, if_false, hq]
        have hqp : List.Pairwise (· ≤ ·)
            (((i, m + 1) :: q ++ s.pending).map Prod.fst) := h4
        rw [List.cons_append, List.map_cons] at hqp
        have hqp' := List.pairwise_cons.mp hqp
        refine ⟨?_, ?_, ?_, ?_⟩
        · rw [effCalls_eff]
          rw [List.pairwise_append]
          refine ⟨h1, List.pairwise_singleton _ _, ?_⟩
          intro a ha b hb
          rw [List.mem_singleton.mp hb]
          exact h2 a ha (i, m + 1) (List.mem_cons_self _ _)
        · intro a ha cc hcc
          rw [effCalls_eff] at ha
          rcases List.mem_append.mp ha with hold | hnew
          · rcases List.mem_cons.mp hcc with hcc1 | hcc2
            · rw [hcc1]
              exact h2 a hold (i, m + 1) (List.mem_cons_self _ _)
            · exact h2 a hold cc (List.mem_cons_of_mem _ hcc2)
          · rw [List.mem_singleton.mp hnew]
            rcases List.mem_cons.mp hcc with hcc1 | hcc2
            · rw [hcc1]
            · exact hqp'.1 cc.1
                (List.mem_map_of_mem Prod.fst (List.mem_append_left _ hcc2))
        · intro a ha cc hcc
          rw [effCalls_eff] at ha
          rcases List.mem_append.mp ha with hold | hnew
          · exact h3 a hold cc hcc
          · rw [List.mem_singleton.mp hnew]
            exact hqp'.1 cc.1
              (List.mem_map_of_mem Prod.fst (List.mem_append_right _ hcc))
        · rw [List.cons_append, List.map_cons]
          exact List.pairwise_cons.mpr hqp'

theorem seqRun_inv (sched : List Bool) :
    ∀ s, Inv s → Inv (seqRun s sched) := by
  induction sched with
  | nil => intro s h; exact h
  | cons b rest ih => intro s h; exact ih _ (seqStep_inv s b h)

theorem initSt_inv (calls : List (Nat × Nat))
    (h : List.Pairwise (· ≤ ·) (calls.map Prod.fst)) : Inv (initSt calls) := by
  refine ⟨?_, ?_, ?_, ?_⟩
  · simp [initSt, effCalls]
  · simp [initSt, effCalls]
  · simp [initSt, effCalls]
  · simpa [initSt] using h

/-- C2: for every turn (calls arriving in index order), every schedule
interleaving stream reads with handler-body steps, and every pair of
handler effects in the resulting trace, the effect of a later-dispatched
call never precedes an effect of an earlier-dispatched call: if an
effect of call `j` occurs before an effect of call `i`, then `j ≤ i`.
In particular handler bodies start — perform their first effect — in
chunk-arrival order, even though stream reads keep interleaving with
handler execution. -/
theorem c2_handler_bodies_start_in_call_order
    (calls : List (Nat × Nat)) (sched : List Bool)
    (t1 t2 : List Ev) (i j : Nat)
    (hcalls : List.Pairwise (· ≤ ·) (calls.map Prod.fst))
    (hsplit : (seqRun (initSt calls) sched).trace = t1 ++ .eff j :: t2)
    (hin : Ev.eff i ∈ t2) :
    j ≤ i := by
  have hs := (seqRun_inv sched _ (initSt_inv calls hcalls)).1
  rw [hsplit] at hs
  have hs' : List.Pairwise (· ≤ ·) (effCalls t1 ++ j :: effCalls t2) := by
    rw [effCalls_append] at hs
    simpa [effCalls] using hs
  have hcons : List.Pairwise (· ≤ ·) (j :: effCalls t2) :=
    (List.pairwise_append.mp hs').2.1
  have hmem : i ∈ effCalls t2 :=
    List.mem_filterMap.mpr ⟨.eff i, hin, rfl⟩
  exact List.rel_of_pairwise_cons hcons hmem

/-- C2 witness: two calls, call 0 with a two-effect body and call 1 with
a one-effect body, under a schedule that reads call 1 off the stream
between call 0's two effects (stream consumption continues while handler
0 runs); handler 1's single effect still happens after handler 0's, and
the theorem instantiated at the first effect of call 0 yields the
ordering fact. -/
theorem c2_handler_bodies_start_in_call_order_witness :
    (seqRun (initSt [(0, 2), (1, 1)])
        [true, false, true, false, false, false, false, false]).trace
      = [Ev.read 0] ++ Ev.eff 0 :: [Ev.read 1, Ev.eff 0, Ev.eff 1]
    ∧ (0 : Nat) ≤ 1 :=
  ⟨rfl,
    c2_handler_bodies_start_in_call_order [(0, 2), (1, 1)]
      [true, false, true, false, false, false, false, false]
      [Ev.read 0] [Ev.read 1, Ev.eff 0, Ev.eff 1] 1 0
      (by decide) rfl (by decide)⟩

end Codebuff

namespace Codebuff

/-! ## Step Control Interpreter: claim C6

Modelled from the spec: the interpreter of spec 4.5 over agent-authored
step-control logic — the interpreter source is not under `src/`; the
agents in `src/.agents` (gemini-cli, codebuff-local-cli) are authored
against it, yielding tool calls, control messages, `'STEP'`
(`advanceStep`) and `'STEP_ALL'` (`advanceAllSteps`). The logic is a
resumable tree: each yield carries the continuation resumed with the
instruction's resolved result. -/

/-- A step instruction yielded by agent step-control logic. -/
inductive StepInstruction where
  | toolCall (name : String) (input : JsVal)
  | controlMessage (content : String)
  | advanceStep
  | advanceAllSteps

/-- Agent step-control logic as a resumable coroutine: finished with an
optional structured output, or yielding an instruction together with
the continuation awaiting that instruction's result. -/
inductive StepLogic where
  | done (output : Option JsVal)
  | yielded (ins : StepInstruction) (k : JsVal → StepLogic)

/-- The observable events of one interpreted turn. -/
inductive TurnEv where
  | modelCall
  | toolExec (name : String)
  | messageAppended
  | stepAllSignaled
  | terminated
deriving DecidableEq

/-- Modelled from the spec: the interpreter loop (spec 4.5). A tool call
is dispatched and the logic resumed with its result; a control message
is appended and the logic resumed; `advanceStep` re-enters the model
call for the next step — unless `advanceAllSteps` was seen, in which
case remaining step boundaries are drained without re-invoking the
model; the logic returning terminates the turn. -/
def interp (execTool : String → JsVal → JsVal) :
    StepLogic → Bool → List TurnEv
  | .done _, _ => [.terminated]
  | .yielded (.toolCall n inp) k, stepAll =>
    .toolExec n :: interp execTool (k (execTool n inp)) stepAll
  | .yielded (.controlMessage _) k, stepAll =>
    .messageAppended :: interp execTool (k .vUndefined) stepAll
  | .yielded .advanceStep k, stepAll =>
    if stepAll then interp execTool (k .vUndefined) true
    else .modelCall :: interp execTool (k .vUndefined) false
  | .yielded .advanceAllSteps k, _ =>
    .stepAllSignaled :: interp execTool (k .vUndefined) true

theorem interp_ne_nil (execTool : String → JsVal → JsVal) :
    ∀ (logic : StepLogic) (b : Bool), interp execTool logic b ≠ [] := by
  intro logic
  induction logic with
  | done out => intro b; simp [interp]
  | yielded ins k ih =>
    intro b
    cases ins with
    | toolCall n inp => simp [interp]
    | controlMessage s => simp [interp]
    | advanceStep =>
      cases b with
      | true => simpa [interp] using ih JsVal.vUndefined true
      | false => simp [interp]
    | advanceAllSteps => simp [interp]

theorem interp_getLast (execTool : String → JsVal → JsVal) :
    ∀ (logic : StepLogic) (b : Bool),
      (interp execTool logic b).getLast? = some .terminated := by
  intro logic
  induction logic with
  | done out => intro b; simp [interp]
  | yielded ins k ih =>
    intro b
    have hlast : ∀ (v : JsVal) (b' : Bool) (x : TurnEv),
        (x :: interp execTool (k v) b').getLast? = some TurnEv.terminated := by
      intro v b' x
      cases hrec : interp execTool (k v) b' with
      | nil => exact absurd hrec (interp_ne_nil execTool (k v) b')
      | cons y t =>
        rw [List.getLast?_cons_cons, ← hrec]
        exact ih v b'
    cases ins with
    | toolCall n inp => simpa [interp] using hlast (execTool n inp) b _
    | controlMessage s => simpa [interp] using hlast JsVal.vUndefined b _
    | advanceStep =>
      cases b with
      | true => simpa [interp] using ih JsVal.vUndefined true
      | false => simpa [interp] using hlast JsVal.vUndefined false _
    | advanceAllSteps => simpa [interp] using hlast JsVal.vUndefined true _

theorem interp_stepAll_no_modelCall (execTool : String → JsVal → JsVal) :
    ∀ (logic : StepLogic), TurnEv.modelCall ∉ interp execTool logic true := by
  intro logic
  induction logic with
  | done out => simp [interp]
  | yielded ins k ih =>
    cases ins with
    | toolCall n inp =>
      simp only [interp, List.mem_cons, not_or]
      exact ⟨by simp, ih (execTool n inp)⟩
    | controlMessage s =>
      simp only [interp, List.mem_cons, not_or]
      exact ⟨by simp, ih JsVal.vUndefined⟩
    | advanceStep =>
      simpa [interp] using ih JsVal.vUndefined
    | advanceAllSteps =>
      simp only [interp, List.mem_cons, not_or]
      exact ⟨by simp, ih JsVal.vUndefined⟩

theorem interp_split_no_modelCall (execTool : String → JsVal → JsVal) :
    ∀ (logic : StepLogic) (b : Bool) (pre post : List TurnEv),
      interp execTool logic b = pre ++ .stepAllSignaled :: post →
      TurnEv.modelCall ∉ post := by
  intro logic
  induction logic with
  | done out =>
    intro b pre post h
    exfalso
    simp only [interp] at h
    cases pre with
    | nil => simp at h
    | cons x xs => simp at h
  | yielded ins k ih =>
    intro b pre post h
    cases ins with
    | toolCall n inp =>
      simp only [interp] at h
      cases pre with
      | nil =>
        rw [List.nil_append, List.cons.injEq] at h
        exact absurd h.1 (by simp)
      | cons x xs =>
        rw [List.cons_append, List.cons.injEq] at h
        exact ih (execTool n inp) b xs post h.2
    | controlMessage s =>
      simp only [interp] at h
      cases pre with
      | nil =>
        rw [List.nil_append, List.cons.injEq] at h
        exact absurd h.1 (by simp)
      | cons x xs =>
        rw [List.cons_append, List.cons.injEq] at h
        exact ih JsVal.vUndefined b xs post h.2
    | advanceStep =>
      cases b with
      | true =>
        simp only [interp, if_true] at h
        exact ih JsVal.vUndefined true pre post h
      | false =>
        simp only [interp, Bool.false_eq_true, if_false] at h
        cases pre with
        | nil =>
          rw [List.nil_append, List.cons.injEq] at h
          exact absurd h.1 (by simp)
        | cons x xs =>
          rw [List.cons_append, List.cons.injEq] at h
          exact ih JsVal.vUndefined false xs post h.2
    | advanceAllSteps =>
      simp only [interp] at h
      cases pre with
      | nil =>
        rw [List.nil_append, List.cons.injEq] at h
        rw [← h.2]
        exact interp_stepAll_no_modelCall execTool (k JsVal.vUndefined)
      | cons x xs =>
        rw [List.cons_append, List.cons.injEq] at h
        exact ih JsVal.vUndefined true xs post h.2

/-- C6: once the step-control logic yields `'STEP_ALL'`
(`advanceAllSteps`), the interpreter never re-invokes the model for the
remainder of the turn — no model-call event occurs after the signal in
any run starting outside step-all mode — and the remaining instructions
of the resumption are drained until the turn terminates (the events
after the signal end with termination). -/
theorem c6_step_all_no_further_model_calls
    (execTool : String → JsVal → JsVal) (logic : StepLogic)
    (pre post : List TurnEv)
    (h : interp execTool logic false = pre ++ .stepAllSignaled :: post) :
    TurnEv.modelCall ∉ post ∧ post.getLast? = some .terminated := by
  refine ⟨interp_split_no_modelCall execTool logic false pre post h, ?_⟩
  have hpost : post ≠ [] := by
    intro hp
    subst hp
    have hlast := interp_getLast execTool logic false
    rw [h, List.getLast?_concat] at hlast
    exact absurd hlast (by simp)
  have hlast := interp_getLast execTool logic false
  rw [h, List.getLast?_append_of_ne_nil pre (by simp)] at hlast
  cases hpo : post with
  | nil => exact absurd hpo hpost
  | cons y t =>
    rw [hpo, List.getLast?_cons_cons] at hlast
    exact hlast

/-- A trivial tool executor for the C6 witness. -/
def execToolDemo : String → JsVal → JsVal := fun _ _ => JsVal.vUndefined

/-- Concrete step-control logic for the C6 witness, shaped like the CLI
agents: a tool call, a `'STEP'` boundary, then `'STEP_ALL'`, one more
tool call, and a structured output. -/
def demoLogic : StepLogic :=
  .yielded (.toolCall "run_terminal_command" .vNull) (fun _ =>
    .yielded .advanceStep (fun _ =>
      .yielded .advanceAllSteps (fun _ =>
        .yielded (.toolCall "add_message" .vNull) (fun _ =>
          .done (some (.vStr "ok"))))))

/-- C6 witness: on `demoLogic` the interpreter's trace is computed
explicitly — one model call before the `'STEP_ALL'` signal, none after
it — and the theorem applied at that trace yields that the post-signal
events carry no model call and end in termination. -/
theorem c6_step_all_no_further_model_calls_witness :
    interp execToolDemo demoLogic false
        = [TurnEv.toolExec "run_terminal_command", TurnEv.modelCall]
          ++ TurnEv.stepAllSignaled
            :: [TurnEv.toolExec "add_message", TurnEv.terminated]
      ∧ (TurnEv.modelCall
            ∉ [TurnEv.toolExec "add_message", TurnEv.terminated]
          ∧ ([TurnEv.toolExec "add_message",
              TurnEv.terminated] : List TurnEv).getLast?
            = some TurnEv.terminated) :=
  ⟨rfl,
    c6_step_all_no_further_model_calls execToolDemo demoLogic
      [TurnEv.toolExec "run_terminal_command", TurnEv.modelCall]
      [TurnEv.toolExec "add_message", TurnEv.terminated] rfl⟩

end Codebuff

namespace Codebuff

/-! ## The `skill` tool handler: claim C9

Embedded from the source:
`packages/agent-runtime/src/tools/handlers/tool/skill.ts`. -/

/-- A skill record of `fileContext.skills`. -/
structure Skill where
  name : String
  description : String
  content : String
  license : Option String

/-- The part of `ProjectFileContext` the handler reads: `skills` is an
optional object, modelled as an insertion-ordered association list. -/
structure FileContext where
  skills : Option (List (String × Skill))

/-- The payload of the json tool result built by `handleSkill`. -/
structure SkillResult where
  name : String
  description : String
  content : String
  license : Option String

/-- One entry of a tool output. -/
structure ToolOutputPart where
  type : String
  value : SkillResult

/-- Modelled from the spec: `jsonToolResult` of
`@codebuff/common/util/messages` is not under `src/`; it wraps a payload
as a single json-typed tool output entry. -/
def jsonToolResult (v : SkillResult) : List ToolOutputPart :=
  [{ type := "json", value := v }]

/-- JavaScript `Array.prototype.join(', ')`. -/
def joinComma : List String → String
  | [] => ""
  | [s] => s
  | s :: rest => s ++ ", " ++ joinComma rest

/-- `handleSkill` embedded from `skill.ts`: after awaiting
`previousToolCallFinished` (pure in this embedding), the requested name
is looked up in `fileContext.skills ?? {}`; a missing skill produces the
not-found json result — empty description, content opening with the
error sentence and followed by the available skill names or the
no-skills sentence — and a found skill produces its payload, the
`license` field attached only when truthy (a non-empty string). The
embedding is a total function: the handler resolves on every input and
never rejects. -/
def handleSkill (fileContext : FileContext) (name : String) :
    List ToolOutputPart :=
  let skills := fileContext.skills.getD []
  match skills.lookup name with
  | none =>
    let availableSkills := skills.map Prod.fst
    let suggestion :=
      if 0 < availableSkills.length then
        " Available skills: " ++ joinComma availableSkills
      else " No skills are currently available."
    jsonToolResult
      { name := name, description := "",
        content := "Error: Skill '" ++ name ++ "' not found." ++ suggestion,
        license := none }
  | some skill =>
    jsonToolResult
      { name := skill.name, description := skill.description,
        content := skill.content,
        license :=
          match skill.license with
          | some l => if l = "" then none else some l
          | none => none }

/-- C9: whenever the requested name is not a key of
`fileContext.skills` — including when `skills` is absent — `handleSkill`
resolves (the embedding is total, no rejection path exists in the
source's not-found branch) with a json tool result whose description is
empty and whose content is the sentence
`Error: Skill '<name>' not found.` followed by the list of available
skill names when any exist, and by the no-skills sentence otherwise. -/
theorem c9_skill_not_found (ctx : FileContext) (n : String)
    (h : (ctx.skills.getD []).lookup n = none) :
    handleSkill ctx n
      = jsonToolResult
          { name := n, description := "",
            content := "Error: Skill '" ++ n ++ "' not found."
              ++ (if 0 < ((ctx.skills.getD []).map Prod.fst).length then
                    " Available skills: "
                      ++ joinComma ((ctx.skills.getD []).map Prod.fst)
                  else " No skills are currently available."),
            license := none } := by
  simp only [handleSkill, h]

/-- C9 witness: requesting skill `zzz` against a context whose only
skill is `commit-helper` yields the not-found json result listing the
available skill. -/
theorem c9_skill_not_found_witness :
    handleSkill
        { skills := some
            [("commit-helper",
              { name := "commit-helper", description := "d",
                content := "c", license := none })] } "zzz"
      = jsonToolResult
          { name := "zzz", description := "",
            content := "Error: Skill '" ++ "zzz" ++ "' not found."
              ++ (if 0 < ((some
                    [("commit-helper",
                      ({ name := "commit-helper", description := "d",
                         content := "c",
                         license := none } : Skill))] |>.getD
                      (α := List (String × Skill)) []).map
                      Prod.fst).length then
                    " Available skills: "
                      ++ joinComma ((some
                        [("commit-helper",
                          ({ name := "commit-helper", description := "d",
                             content := "c",
                             license := none } : Skill))] |>.getD
                          (α := List (String × Skill)) []).map Prod.fst)
                  else " No skills are currently available."),
            license := none } :=
  c9_skill_not_found
    { skills := some
        [("commit-helper",
          { name := "commit-helper", description := "d",
            content := "c", license := none })] } "zzz" rfl

end Codebuff
